import Mathlib

/-!
Verification model of the PYSTOIC dependency-resolution engine
(`PYSTOIC/requirements/{utils,resolve,commits,install_api}.py`).

Strings are modelled as lists of characters (`Str`), since every operation the
engine performs on them (split, replace, containment, comparison) is a
character-level operation.  Python's `str.split`, `str.replace`, substring
containment, unpacking errors, `assert` failures and index errors are modelled
with explicit recursive functions and `Option`/`Except` results.  Python sets
are modelled as lists considered up to membership; the unspecified iteration
order of a Python set corresponds to the order of the modelling list.
-/

abbrev Str := List Char

/-- Python `s.split(c)` for a one-character separator `c`
(`"a/b".split("/") == ["a","b"]`, `"".split("/") == [""]`). -/
def splitCh (c : Char) : Str → List Str
  | [] => [[]]
  | x :: xs =>
    if x = c then [] :: splitCh c xs
    else
      match splitCh c xs with
      | [] => [[x]]
      | h :: t => (x :: h) :: t

/-- Python `sep.join(parts)` for a one-character separator. -/
def joinCh (c : Char) : List Str → Str
  | [] => []
  | [a] => a
  | a :: rest => a ++ c :: joinCh c rest

/-- Python `"==" in s` (substring containment of `==`). -/
def hasEq : Str → Bool
  | [] => false
  | [_] => false
  | x :: y :: rest => (x = '=' && y = '=') || hasEq (y :: rest)

/-- Python `s.split("==")`: split at every non-overlapping occurrence of
`==`, scanning left to right. -/
def splitEq : Str → List Str
  | [] => [[]]
  | [c] => [[c]]
  | x :: y :: rest =>
    if x = '=' ∧ y = '=' then [] :: splitEq rest
    else
      match splitEq (y :: rest) with
      | [] => [[x]]
      | h :: t => (x :: h) :: t

/-- First occurrence of `==` in a string: `some (before, after)` if present. -/
def findEqSub : Str → Option (Str × Str)
  | [] => none
  | [_] => none
  | x :: y :: rest =>
    if x = '=' ∧ y = '=' then some ([], rest)
    else (findEqSub (y :: rest)).map (fun p => (x :: p.1, p.2))

/-- First occurrence of `==` at index at least 1 (the lazy group `(.+?)` of the
regex `^(.+?)\s*==(.+?)$` forces a non-empty part before the separator). -/
def matchEq (s : Str) : Option (Str × Str) :=
  match s with
  | [] => none
  | c :: rest => (findEqSub rest).map (fun p => (c :: p.1, p.2))

/-- First occurrence of `(==` in a string. -/
def findPE : Str → Option (Str × Str)
  | x :: y :: z :: rest =>
    if x = '(' ∧ y = '=' ∧ z = '=' then some ([], rest)
    else (findPE (y :: z :: rest)).map (fun p => (x :: p.1, p.2))
  | _ => none

/-- First occurrence of `(==` at index at least 1. -/
def matchPE (s : Str) : Option (Str × Str) :=
  match s with
  | [] => none
  | c :: rest => (findPE rest).map (fun p => (c :: p.1, p.2))

/-- Trailing whitespace removal, as the `\s*` between the regex's name group
and separator. -/
def dropTrailingWS (s : Str) : Str :=
  (s.reverse.dropWhile Char.isWhitespace).reverse

/-- The characters of Python's regex class `\s`: space, tab, newline,
carriage return, vertical tab, form feed.  The regex models in this file
(`parse_req`, `parse_pkginfo_req`) are exact for strings containing none of
these characters: with whitespace present, Python's `.` refusing `\n`, the
`$` anchor accepting a position before a final newline, and a
whitespace-only name group diverge from the simple first-split reading, so
statements quantifying over arbitrary strings carry this exclusion. -/
def isPyWhitespace (c : Char) : Bool :=
  c.toNat = 32 || c.toNat = 9 || c.toNat = 10 || c.toNat = 13 ||
    c.toNat = 11 || c.toNat = 12

/-- Python `s.replace(a, b)` for one-character `a` and `b`. -/
def pyMapChar (s : Str) (a b : Char) : Str :=
  s.map (fun c => if c = a then b else c)

/-- Python `s.lower()` (ASCII case folding, as used on package names). -/
def lowerStr (s : Str) : Str := s.map Char.toLower

/-- Python `s.replace("/", "___")` as used for GraphQL aliases in
`commits.build_query`. -/
def expandSlash : Str → Str
  | [] => []
  | c :: rest => (if c = '/' then "___".data else [c]) ++ expandSlash rest

/-- Python `s.replace("___", "/")` as used in
`commits.transform_graphql_response` (left-to-right, non-overlapping). -/
def collapseUnd : Str → Str
  | x :: y :: z :: rest =>
    if x = '_' ∧ y = '_' ∧ z = '_' then '/' :: collapseUnd rest
    else x :: collapseUnd (y :: z :: rest)
  | s => s

/-- A hexadecimal digit (the spec's notion of a valid short-hash character). -/
def isHexChar (c : Char) : Bool :=
  c.isDigit || ('a' ≤ c && c ≤ 'f') || ('A' ≤ c && c ≤ 'F')

/-- Python `map`-with-failure over a list: the loop stops at the first
failing element (models list building that can raise). -/
def mapOpt (f : α → Option β) : List α → Option (List β)
  | [] => some []
  | a :: rest =>
    match f a with
    | none => none
    | some b =>
      match mapOpt f rest with
      | none => none
      | some bs => some (b :: bs)

/-! ## The Requirement value (`utils.Requirement`) -/

/-- Model of `utils.Requirement`: a NamedTuple of a package name and an optional
version string. -/
structure Requirement where
  name : Str
  version : Option Str
deriving DecidableEq

/-- Model of `Requirement.__str__`: `f"{name}=={version}" if version else name`.
Note the Python truthiness: an empty-string version renders as the bare
name. -/
def renderReq (r : Requirement) : Str :=
  match r.version with
  | some v => if v = [] then r.name else r.name ++ '=' :: '=' :: v
  | none => r.name

/-- Model of `utils.parse_req`: regex `^(.+?)\s*==(.+?)$`, i.e. split at the first
`==` occurring after a non-empty name, with a non-empty version; otherwise a
bare requirement with no version.  (The `\s*` of the regex strips whitespace
between the name and `==`, modelled by `dropTrailingWS`.) -/
def parse_req (s : Str) : Requirement :=
  match matchEq s with
  | some (n, v) => if v = [] then ⟨s, none⟩ else ⟨dropTrailingWS n, some v⟩
  | none => ⟨s, none⟩

/-- Model of `utils.parse_pkginfo_req`: regex `^(.+?)\s*\(==(.+?)\)$`: name before the
first `(==` (non-empty), version between `(==` and a final `)` (non-empty);
otherwise a bare requirement with no version. -/
def parse_pkginfo_req (s : Str) : Requirement :=
  match matchPE s with
  | some (n, tl) =>
    match tl.reverse with
    | ')' :: v1 :: vrest => ⟨dropTrailingWS n, some ((v1 :: vrest).reverse)⟩
    | _ => ⟨s, none⟩
  | none => ⟨s, none⟩

/-- Model of `utils.is_wb_req`: `req_str.startswith(wb_prefix) and "==" in req_str`. -/
def is_wb_req (req : Str) (pfx : Str) : Bool :=
  pfx.isPrefixOf req && hasEq req

/-! ## Version codec (`utils._wb`, `utils.wb`) -/

/-- Model of `utils._wb.branch_normalized` and `resolve`'s
`primary_branch_normalized`: `branch.replace("/", ".").replace("-", ".")`. -/
def normalize_branch (b : Str) : Str :=
  pyMapChar (pyMapChar b '/' '.') '-' '.'

/-- Model of `utils._wb`: encode `(workbook, branch, commit)` as the rendering
`index-<repo.lower()>==0.0.0+<normalized branch>.<commit>`.  `none` models the
unpack error when the workbook does not split as `org/repo` and the
`assert len(commit) == 7` failure. -/
def _wb (workbook branch commit : Str) : Option Str :=
  match splitCh '/' workbook with
  | [_, repo] =>
    let package_name := "index-".data ++ lowerStr repo
    let branch_normalized := normalize_branch branch
    if commit.length = 7 then
      some (package_name ++ '=' :: '=' :: ("0.0.0+".data ++ branch_normalized ++ '.' :: commit))
    else none
  | _ => none

/-- Python truthiness of an optional string (`None` and `""` are falsy). -/
def truthy : Option Str → Bool
  | none => false
  | some s => !s.isEmpty

/-- Model of `utils.wb`: pick the primary `(branch, commit)` pair when
`primary_commit` is truthy, otherwise the fallback pair, and encode.  When the
chosen commit is absent the encode fails (in Python, `len` of `None` or the
7-character assertion). -/
def wb (workbook : Str) (primary_branch : Str) (primary_commit : Option Str)
    (fallback_branch : Str) (fallback_commit : Option Str) : Option Str :=
  let branch := if truthy primary_commit then primary_branch else fallback_branch
  let commit := if truthy primary_commit then primary_commit else fallback_commit
  _wb workbook branch (commit.getD [])

/-- Model of `utils.wb_req_parts`: split the version's local segment at `+`, take
index 1, split it at `.`; the branch is all but the last dot-segment re-joined
with dots, the commit is the last segment.  `none` models the attribute error
on a `None` version and the index error when the version has no `+`. -/
def wb_req_parts (req : Requirement) : Option (Str × Str) :=
  match req.version with
  | none => none
  | some v =>
    match splitCh '+' v with
    | _ :: p :: _ =>
      let parts := splitCh '.' p
      some (joinCh '.' parts.dropLast, parts.getLastD [])
    | _ => none

/-- Model of `utils.req_to_wheel`: `package, version = req.split("==")` (exactly two
parts, else a Python unpack error, modelled as `none`), then
`f"{package.replace('-', '_')}-{version}-py3-none-any.whl"`. -/
def req_to_wheel (req : Str) : Option Str :=
  match splitEq req with
  | [package, version] =>
    some (pyMapChar package '-' '_' ++ '-' :: version ++ "-py3-none-any.whl".data)
  | _ => none

/-! ## Ordering and sorting (Python tuple comparison and `sorted(set(...))`) -/

/-- Python string comparison (lexicographic by code point). -/
def strLtB : Str → Str → Bool
  | [], [] => false
  | [], _ :: _ => true
  | _ :: _, [] => false
  | a :: as_, b :: bs =>
    if a.toNat < b.toNat then true
    else if b.toNat < a.toNat then false
    else strLtB as_ bs

/-- Total comparison of optional version strings, used to state the order of
a sorted output.  Python raises `TypeError` when comparing `None` with a
string; that raising comparison is modelled by `verLtP` below, and this total
version (with the arbitrary choice `none < some`) is only relied on where the
mixed case cannot be reached: in `resolve_wb_reqs` the sorted requirements
have pairwise distinct names, so tuple comparison never reaches the
versions. -/
def verLtB : Option Str → Option Str → Bool
  | none, none => false
  | none, some _ => true
  | some _, none => false
  | some a, some b => strLtB a b

/-- Python comparison of optional version strings as tuple comparison
reaches them: comparing `None` with a string raises `TypeError`, modelled as
`none`. -/
def verLtP : Option Str → Option Str → Option Bool
  | none, none => some false
  | none, some _ => none
  | some _, none => none
  | some a, some b => some (strLtB a b)

/-- Python `<` on `Requirement` NamedTuples: lexicographic on the
`(name, version)` tuple. -/
def reqLtB (a b : Requirement) : Bool :=
  strLtB a.name b.name || (a.name = b.name && verLtB a.version b.version)

/-- Insert into a strictly sorted list, dropping an exact duplicate. -/
def insertReq (r : Requirement) : List Requirement → List Requirement
  | [] => [r]
  | x :: xs =>
    if r = x then x :: xs
    else if reqLtB r x then r :: x :: xs
    else x :: insertReq r xs

/-- Python `sorted(set(l))` on requirements, total version: the strictly
increasing enumeration of the distinct elements of `l` under `reqLtB`.  It is
used only where every comparison Python performs is defined — in
`resolve_wb_reqs`, whose input elements have pairwise distinct names so that
tuple comparison never reaches a `None`-versus-string version pair.  The
general, possibly raising sort is `sortDedupP` below. -/
def sortDedup (l : List Requirement) : List Requirement :=
  l.foldr insertReq []

/-- Python `<` on `Requirement` NamedTuples with the raising version
comparison: names are compared first, and only equal names reach the version
comparison, which may raise `TypeError` (`none`). -/
def reqLtP (a b : Requirement) : Option Bool :=
  if a.name = b.name then verLtP a.version b.version
  else some (strLtB a.name b.name)

/-- Insertion step of the possibly raising sort: a comparison that raises
aborts the whole sort, as Python's `sorted()` propagates the `TypeError`. -/
def insertReqP (r : Requirement) : List Requirement → Option (List Requirement)
  | [] => some [r]
  | x :: xs =>
    if r = x then some (x :: xs)
    else
      match reqLtP r x with
      | none => none
      | some true => some (r :: x :: xs)
      | some false => (insertReqP r xs).map (fun l => x :: l)

/-- Python `sorted(set(l))` on requirements: `none` models the `TypeError`
raised when the sort compares a bare requirement (`version = None`) with a
versioned one of the same name, which happens exactly when `l` holds two
such distinct elements (nothing can separate them, so any sort must compare
them). -/
def sortDedupP (l : List Requirement) : Option (List Requirement) :=
  l.foldr (fun r acc => acc.bind (insertReqP r)) (some [])

/-- Model of `utils.classify_reqs`: partition requirement strings by `is_wb_req`,
parse each side, and return `sorted(set(...))` of both sides; `none` models
the `TypeError` that `sorted()` raises when one side holds a name both bare
and versioned. -/
def classify_reqs (reqs : List Str) (pfx : Str) :
    Option (List Requirement × List Requirement) :=
  match sortDedupP ((reqs.filter (fun r => is_wb_req r pfx)).map parse_req) with
  | none => none
  | some int =>
    match sortDedupP ((reqs.filter (fun r => !is_wb_req r pfx)).map parse_req) with
    | none => none
    | some ext => some (int, ext)

/-! ## Conflict resolution (`resolve.py`, `utils.group_reqs_by_name`) -/

/-- One step of `utils.group_reqs_by_name`: append `r` to its name's group,
or append a new group at the end (Python dict insertion order). -/
def addGroup : List (Str × List Requirement) → Requirement → List (Str × List Requirement)
  | [], r => [(r.name, [r])]
  | (k, vs) :: rest, r =>
    if k = r.name then (k, vs ++ [r]) :: rest else (k, vs) :: addGroup rest r

/-- Model of `utils.group_reqs_by_name`: group a requirement list by name, preserving
first-occurrence order of names and list order within each group. -/
def group_reqs_by_name (reqs : List Requirement) : List (Str × List Requirement) :=
  reqs.foldl addGroup []

/-- The comprehension `[r for r in versions if wb_req_parts(r)[0] == pbn]` of
`resolve.resolve_req_version`; `none` models the exception raised when some
candidate's version cannot be decoded. -/
def homoFilter (versions : List Requirement) (pbn : Str) : Option (List Requirement) :=
  match versions with
  | [] => some []
  | r :: rest =>
    match wb_req_parts r with
    | none => none
    | some (b, _) =>
      match homoFilter rest pbn with
      | none => none
      | some hs => some (if b = pbn then r :: hs else hs)

/-- A candidate is homonymous when its decoded branch equals the normalized
primary branch (the comparison performed inside the comprehension of
`resolve.resolve_req_version`). -/
def isHomoB (pbn : Str) (r : Requirement) : Bool :=
  match wb_req_parts r with
  | some (b, _) => b = pbn
  | none => false

/-- Model of `resolve.resolve_req_version`: a single candidate is returned as is;
otherwise the first candidate whose decoded branch equals the normalized
primary branch wins; otherwise the first candidate of the list.  `none`
models the index error on an empty list and decode failures. -/
def resolve_req_version (versions : List Requirement) (primary_branch : Str) :
    Option Requirement :=
  if versions.length = 1 then versions.head?
  else
    let primary_branch_normalized := normalize_branch primary_branch
    match homoFilter versions primary_branch_normalized with
    | none => none
    | some (h :: _) => some h
    | some [] => versions.head?

/-- Model of `resolve.resolve_wb_reqs`: resolve one version per name group and return
`sorted(list(resolved))`. -/
def resolve_wb_reqs (reqs : List Requirement) (primary_branch : Str) :
    Option (List Requirement) :=
  match mapOpt (fun g => resolve_req_version g.2 primary_branch) (group_reqs_by_name reqs) with
  | none => none
  | some picked => some (sortDedup picked)

/-! ## Batched commit fetching (`commits.py`) -/

/-- The alias assignment of `commits.build_query`: each repo must split as
`org/repo` (Python unpack error otherwise) and its sub-query alias is
`repo.replace("/", "___")`.  The surrounding GraphQL text carries no further
logic and is not modelled. -/
def build_query_keys (repos : List Str) : Option (List Str) :=
  mapOpt
    (fun repo =>
      match splitCh '/' repo with
      | [_, _] => some (expandSlash repo)
      | _ => none)
    repos

/-- The per-workbook pair produced by `commits.transform_graphql_response`. -/
structure CommitPair where
  workbook : Str
  primary : Option Str
  fallback : Option Str
deriving DecidableEq

/-- An entry of the GraphQL response dict: alias key, then the short hashes
extracted from `primaryBranch`/`fallbackBranch` (`none` when the branch ref
is null; a present ref always carries its `history.edges[0].node.abbreviatedOid`
path, which is pure data plumbing and is collapsed here). -/
abbrev RespEntry := Str × Option Str × Option Str

/-- Model of `commits.transform_graphql_response`: per response entry, restore the
workbook name from the alias; if both branches are null raise
`ValueError(f"Neither primary nor fallback branch found for {repo}")`,
otherwise emit the pair. -/
def transform_graphql_response : List RespEntry → Except Str (List CommitPair)
  | [] => .ok []
  | (repo, p, f) :: rest =>
    let repo_with_org := collapseUnd repo
    if p = none ∧ f = none then
      .error ("Neither primary nor fallback branch found for ".data ++ repo_with_org)
    else
      match transform_graphql_response rest with
      | .error e => .error e
      | .ok l => .ok (⟨repo_with_org, p, f⟩ :: l)

/-! ## Transitive collection (`utils.collect_requirements`) -/

/-- Association-list lookup, modelling a filesystem lookup of a wheel file in
the local package index. -/
def alookup (l : List (Str × List Str)) (k : Str) : Option (List Str) :=
  match l with
  | [] => none
  | (k', v) :: rest => if k' = k then some v else alookup rest k

/-- The `direct_reqs_strs` of one artifact: the raw metadata requirement
strings parsed by `parse_pkginfo_req` (as `utils.wheel_file_reqs` does) and
rendered back with `str(...)`. -/
def declaredStrs (raw : List Str) : List Str :=
  raw.map (fun r => renderReq (parse_pkginfo_req r))

/-- Every rendering declared by any artifact of the store. -/
def allDeclared : List (Str × List Str) → List Str
  | [] => []
  | kv :: rest => declaredStrs kv.2 ++ allDeclared rest

theorem mem_allDeclared {rd : List (Str × List Str)} {kv : Str × List Str}
    (hkv : kv ∈ rd) {raw : Str} (hraw : raw ∈ kv.2) :
    renderReq (parse_pkginfo_req raw) ∈ allDeclared rd := by
  induction rd with
  | nil => cases hkv
  | cons hd tl ih =>
    rcases List.mem_cons.mp hkv with h | h
    · subst h
      exact List.mem_append_left _ (List.mem_map_of_mem _ hraw)
    · exact List.mem_append_right _ (ih h)

theorem alookup_mem {l : List (Str × List Str)} {k : Str} {v : List Str}
    (h : alookup l k = some v) : (k, v) ∈ l := by
  induction l with
  | nil => simp [alookup] at h
  | cons hd tl ih =>
    obtain ⟨k', v'⟩ := hd
    by_cases hk : k' = k
    · subst hk
      simp [alookup] at h
      subst h
      exact List.mem_cons_self _ _
    · simp [alookup, hk] at h
      exact List.mem_cons_of_mem _ (ih h)

theorem length_filter_le_of_imp (U : List Str) (p q : Str → Bool)
    (h : ∀ x, p x = true → q x = true) :
    (U.filter p).length ≤ (U.filter q).length := by
  induction U with
  | nil => simp
  | cons u tl ih =>
    by_cases hp : p u = true
    · simp [List.filter_cons, hp, h u hp]
      omega
    · simp [List.filter_cons, hp]
      cases hq : q u <;> simp <;> omega

theorem length_filter_visited_lt (U : List Str) (visited : List Str) (req : Str)
    (hU : req ∈ U) (hv : req ∉ visited) :
    (U.filter (fun x => decide (x ∉ req :: visited))).length <
      (U.filter (fun x => decide (x ∉ visited))).length := by
  induction U with
  | nil => cases hU
  | cons u tl ih =>
    by_cases hur : u = req
    · subst hur
      have h1 : (decide (u ∉ u :: visited)) = false := by simp
      have h2 : (decide (u ∉ visited)) = true := by simpa using hv
      have hle := length_filter_le_of_imp tl (fun x => decide (x ∉ u :: visited))
        (fun x => decide (x ∉ visited))
        (fun x hx => by
          simp only [decide_eq_true_eq] at hx ⊢
          exact fun hmem => hx (List.mem_cons_of_mem _ hmem))
      simp only [List.filter_cons, h1, h2] at *
      simp at *
      omega
    · have hsame : (decide (u ∉ req :: visited)) = (decide (u ∉ visited)) := by
        simp only [List.mem_cons, decide_not]
        congr 1
        simp [hur]
      have hmem : req ∈ tl := by
        rcases List.mem_cons.mp hU with h | h
        · exact absurd h.symm hur
        · exact h
      cases hb : (decide (u ∉ visited)) with
      | false =>
        simp only [List.filter_cons, hsame, hb, cond_eq_if, if_false]
        exact ih hmem
      | true =>
        simp only [List.filter_cons, hsame, hb, cond_eq_if, if_true,
          List.length_cons]
        exact Nat.succ_lt_succ (ih hmem)

/-- The recursive worker of `utils.collect_requirements`.  `rd` is the local
wheel store: an association list from wheel path to the raw requirement
strings its metadata declares (the external `pkginfo.Wheel(...).requires_dist`
read by `utils.wheel_file_reqs`); a missing wheel raises, modelled as `none`,
as does a requirement string that does not split in two at `==`.  The result
is `(all_reqs, delta)` where `delta` lists the newly visited (artifact
inspected) requirement strings, most recent first: the Python function
mutates `visited` in place, and its final visited set is `delta ++ visited`.
The parameters `U`, `hU` and the hypothesis on `initial` are termination
scaffolding (a finite universe containing every string that can be expanded);
they do not influence the computed value. -/
def collectGo (rd : List (Str × List Str)) (pl pfx : Str) (U : List Str)
    (hU : ∀ kv ∈ rd, ∀ raw ∈ kv.2, renderReq (parse_pkginfo_req raw) ∈ U) :
    (initial : List Str) → (visited : List Str) →
    (∀ r ∈ initial, r ∈ U) → Option (List Str × List Str)
  | [], _, _ => some ([], [])
  | req :: rest, visited, hinit =>
    if h : req ∈ visited ∨ is_wb_req req pfx = false then
      collectGo rd pl pfx U hU rest visited
        (fun r hr => hinit r (List.mem_cons_of_mem _ hr))
    else
      match req_to_wheel req with
      | none => none
      | some wname =>
        match hlk : alookup rd (pl ++ '/' :: wname) with
        | none => none
        | some raw =>
          if (declaredStrs raw).filter (fun r => is_wb_req r pfx) = [] then
            match collectGo rd pl pfx U hU rest (req :: visited)
                (fun r hr => hinit r (List.mem_cons_of_mem _ hr)) with
            | none => none
            | some (all2, d2) => some (declaredStrs raw ++ all2, d2 ++ [req])
          else
            match collectGo rd pl pfx U hU
                ((declaredStrs raw).filter (fun r => is_wb_req r pfx))
                (req :: visited)
                (fun r hr => by
                  have hd : r ∈ declaredStrs raw := (List.mem_filter.mp hr).1
                  obtain ⟨raw0, hraw0, hrend⟩ := List.mem_map.mp hd
                  exact hrend ▸ hU _ (alookup_mem hlk) raw0 hraw0) with
            | none => none
            | some (all1, d1) =>
              match collectGo rd pl pfx U hU rest (d1 ++ req :: visited)
                  (fun r hr => hinit r (List.mem_cons_of_mem _ hr)) with
              | none => none
              | some (all2, d2) =>
                some (declaredStrs raw ++ all1 ++ all2, d2 ++ d1 ++ [req])
termination_by initial visited _ =>
  ((U.filter (fun x => decide (x ∉ visited))).length, initial.length)
decreasing_by
  · exact Prod.Lex.right _ (by simp)
  · apply Prod.Lex.left
    exact length_filter_visited_lt U visited req (hinit req (List.mem_cons_self _ _))
      (fun hmem => h (Or.inl hmem))
  · apply Prod.Lex.left
    exact length_filter_visited_lt U visited req (hinit req (List.mem_cons_self _ _))
      (fun hmem => h (Or.inl hmem))
  · apply Prod.Lex.left
    calc (U.filter (fun x => decide (x ∉ d1 ++ req :: visited))).length
        ≤ (U.filter (fun x => decide (x ∉ req :: visited))).length := by
          apply length_filter_le_of_imp
          intro x hx
          simp only [decide_eq_true_eq] at hx ⊢
          exact fun hmem => hx (List.mem_append_right _ hmem)
      _ < (U.filter (fun x => decide (x ∉ visited))).length :=
          length_filter_visited_lt U visited req (hinit req (List.mem_cons_self _ _))
            (fun hmem => h (Or.inl hmem))

/-- Model of `utils.collect_requirements` public entry: `visited` starts empty; the
branch parameters are carried through the recursion but never used, as in the
source.  Returns `(all_reqs, visited)` where `visited` lists the requirement
strings whose artifact was inspected. -/
def collect_requirements (rd : List (Str × List Str)) (initial_reqs : List Str)
    (primary_branch fallback_branch pypi_local : Str) (pfx : Str) :
    Option (List Str × List Str) :=
  collectGo rd pypi_local pfx (initial_reqs ++ allDeclared rd)
    (fun kv hkv raw hraw => List.mem_append_right _ (mem_allDeclared hkv hraw))
    initial_reqs [] (fun _ hr => List.mem_append_left _ hr)

/-! ## Helper lemmas about the string primitives -/

theorem splitCh_ne_nil (c : Char) (s : Str) : splitCh c s ≠ [] := by
  induction s with
  | nil => simp [splitCh]
  | cons x xs ih =>
    by_cases h : x = c
    · simp [splitCh, h]
    · simp only [splitCh, if_neg h]
      cases hs : splitCh c xs with
      | nil => exact absurd hs ih
      | cons hh tt => simp

theorem splitCh_of_not_mem {c : Char} {s : Str} (h : c ∉ s) : splitCh c s = [s] := by
  induction s with
  | nil => rfl
  | cons x xs ih =>
    have hx : ¬(x = c) := fun heq => h (heq ▸ List.mem_cons_self _ _)
    simp only [splitCh, if_neg hx]
    rw [ih (fun hm => h (List.mem_cons_of_mem _ hm))]

theorem splitCh_append (c : Char) {a : Str} (b : Str) (h : c ∉ a) :
    splitCh c (a ++ c :: b) = a :: splitCh c b := by
  induction a with
  | nil => simp [splitCh]
  | cons x a ih =>
    have hx : ¬(x = c) := fun heq => h (heq ▸ List.mem_cons_self _ _)
    have ih' := ih (fun hm => h (List.mem_cons_of_mem _ hm))
    rw [List.cons_append]
    simp only [splitCh, if_neg hx]
    rw [ih']

theorem splitCh_concat (c : Char) (s : Str) {t : Str} (h : c ∉ t) :
    splitCh c (s ++ c :: t) = splitCh c s ++ [t] := by
  induction s with
  | nil => simp [splitCh, splitCh_of_not_mem h]
  | cons x s ih =>
    by_cases hx : x = c
    · subst hx
      rw [List.cons_append]
      simp [splitCh, ih]
    · rw [List.cons_append]
      simp only [splitCh, if_neg hx]
      rw [ih]
      obtain ⟨h0, t0, hs⟩ := List.exists_cons_of_ne_nil (splitCh_ne_nil c s)
      rw [hs]
      simp

theorem joinCh_splitCh (c : Char) (s : Str) : joinCh c (splitCh c s) = s := by
  induction s with
  | nil => rfl
  | cons x s ih =>
    by_cases h : x = c
    · subst h
      simp only [splitCh, if_pos rfl]
      obtain ⟨h0, t0, hs⟩ := List.exists_cons_of_ne_nil (splitCh_ne_nil x s)
      rw [hs]
      rw [hs] at ih
      show ([] : Str) ++ x :: joinCh x (h0 :: t0) = x :: s
      rw [ih, List.nil_append]
    · simp only [splitCh, if_neg h]
      obtain ⟨h0, t0, hs⟩ := List.exists_cons_of_ne_nil (splitCh_ne_nil c s)
      rw [hs]
      rw [hs] at ih
      cases t0 with
      | nil =>
        show (x :: h0 : Str) = x :: s
        simpa [joinCh] using ih
      | cons t1 ts =>
        show (x :: h0 : Str) ++ c :: joinCh c (t1 :: ts) = x :: s
        rw [show joinCh c (h0 :: t1 :: ts) = h0 ++ c :: joinCh c (t1 :: ts) from rfl] at ih
        rw [List.cons_append, ih]

theorem dropLast_concat_own (l : List α) (a : α) : (l ++ [a]).dropLast = l := by
  induction l with
  | nil => rfl
  | cons x xs ih =>
    cases hx : xs ++ [a] with
    | nil => exact absurd hx (by simp)
    | cons y ys =>
      simp only [List.cons_append, hx, List.dropLast]
      rw [← hx, ih]

theorem getLastD_concat_own (l : List α) (a d : α) : (l ++ [a]).getLastD d = a := by
  induction l generalizing d with
  | nil => rfl
  | cons x xs ih =>
    rw [List.cons_append, List.getLastD_cons]
    exact ih x

theorem mem_pyMapChar {x : Char} {s : Str} {a b : Char} (h : x ∈ pyMapChar s a b) :
    x = b ∨ x ∈ s := by
  obtain ⟨c, hc, hx⟩ := List.mem_map.mp h
  by_cases hca : c = a
  · simp [hca] at hx
    exact Or.inl hx.symm
  · simp [hca] at hx
    exact Or.inr (hx ▸ hc)

theorem not_mem_normalize_branch {x : Char} (hx : x ≠ '.') {b : Str} (h : x ∉ b) :
    x ∉ normalize_branch b := by
  intro hmem
  rcases mem_pyMapChar hmem with h1 | h1
  · exact hx h1
  · rcases mem_pyMapChar h1 with h2 | h2
    · exact hx h2
    · exact h h2

theorem isHexChar_ne (c : Char) (h : isHexChar c = true) :
    c ≠ '+' ∧ c ≠ '.' ∧ c ≠ '=' := by
  refine ⟨fun hc => ?_, fun hc => ?_, fun hc => ?_⟩ <;>
    (subst hc; exact absurd h (by decide))

theorem dropTrailingWS_eq_self {s : Str} (h : ∀ x ∈ s, x.isWhitespace = false) :
    dropTrailingWS s = s := by
  unfold dropTrailingWS
  cases hrev : s.reverse with
  | nil =>
    have : s = [] := by simpa using congrArg List.reverse hrev
    simp [this]
  | cons x xs =>
    have hx : x ∈ s := by
      have : x ∈ s.reverse := hrev ▸ List.mem_cons_self _ _
      simpa using this
    rw [List.dropWhile_cons, h x hx]
    simp only [Bool.false_eq_true, if_false]
    rw [← hrev, List.reverse_reverse]

theorem findEqSub_boundary {a : Str} (b : Str) (h : '=' ∉ a) :
    findEqSub (a ++ '=' :: '=' :: b) = some (a, b) := by
  induction a with
  | nil => simp [findEqSub]
  | cons x a ih =>
    have hx : ¬(x = '=') := fun heq => h (heq ▸ List.mem_cons_self _ _)
    have ih' := ih (fun hm => h (List.mem_cons_of_mem _ hm))
    cases a with
    | nil =>
      simp only [List.nil_append] at ih' ⊢
      simp [findEqSub, hx]
    | cons y a' =>
      simp only [List.cons_append] at ih' ⊢
      rw [show findEqSub (x :: y :: (a' ++ '=' :: '=' :: b)) =
          if x = '=' ∧ y = '=' then some ([], a' ++ '=' :: '=' :: b)
          else (findEqSub (y :: (a' ++ '=' :: '=' :: b))).map
            (fun p => (x :: p.1, p.2)) from rfl]
      rw [if_neg (fun hc => hx hc.1), ih']
      rfl

theorem parse_req_boundary {p v : Str} (hp : p ≠ []) (hpe : '=' ∉ p)
    (hws : ∀ x ∈ p, x.isWhitespace = false) (hv : v ≠ []) :
    parse_req (p ++ '=' :: '=' :: v) = ⟨p, some v⟩ := by
  obtain ⟨x, p', rfl⟩ := List.exists_cons_of_ne_nil hp
  have hfind : findEqSub (p' ++ '=' :: '=' :: v) = some (p', v) :=
    findEqSub_boundary v (fun hm => hpe (List.mem_cons_of_mem _ hm))
  simp only [parse_req, matchEq, List.cons_append, hfind, Option.map_some']
  rw [if_neg hv, dropTrailingWS_eq_self hws]

/-! ## Claim C7: commit validation in the encoder -/

/-- Claim C7 (corrected): for a workbook of the form `org/repo`, the encoder
`_wb` succeeds exactly when the commit string has length 7; it performs no
hexadecimal check (the claim's "or contains a non-hexadecimal character"
failure condition does not hold, see the counterexample). -/
theorem C7_encode_fails_iff_length (org repo branch commit : Str)
    (h1 : '/' ∉ org) (h2 : '/' ∉ repo) :
    (_wb (org ++ '/' :: repo) branch commit).isSome = true ↔ commit.length = 7 := by
  unfold _wb
  rw [splitCh_append '/' repo h1, splitCh_of_not_mem h2]
  by_cases hc : commit.length = 7
  · simp [hc]
  · simp [hc]

/-- Claim C7 counterexample: the commit `zzzzzzz` has length 7 but is not
hexadecimal, yet encoding succeeds, contradicting the claim that encoding
fails for every commit containing a non-hexadecimal character. -/
theorem C7_counterexample :
    (_wb "org/repo".data "main".data "zzzzzzz".data).isSome = true ∧
    "zzzzzzz".data.all isHexChar = false := by decide

/-- Witness for `C7_encode_fails_iff_length` at a concrete input. -/
theorem C7_witness :
    ('/' ∉ "org".data) ∧ ('/' ∉ "repo".data) ∧
    ((_wb ("org".data ++ '/' :: "repo".data) "main".data "abc1234".data).isSome = true ↔
      "abc1234".data.length = 7) :=
  ⟨by decide, by decide,
    C7_encode_fails_iff_length "org".data "repo".data "main".data "abc1234".data
      (by decide) (by decide)⟩

/-! ## Claim C2: the codec round-trip law -/

/-- Claim C2 (corrected): decoding the version of an encoded requirement
recovers `(normalize(branch), commit)`, for workbooks `org/repo` whose
lowercased repo contains no `=` and no whitespace, branches containing no
`+`, and 7-character hexadecimal commits.  (For a branch containing `+` the
round trip fails, see the counterexample.) -/
theorem C2_roundtrip (org repo branch commit : Str)
    (h1 : '/' ∉ org) (h2 : '/' ∉ repo)
    (h3 : '=' ∉ lowerStr repo) (h4 : ∀ x ∈ lowerStr repo, x.isWhitespace = false)
    (h5 : '+' ∉ branch) (h6 : commit.all isHexChar = true)
    (h7 : commit.length = 7) :
    (_wb (org ++ '/' :: repo) branch commit).map (fun s => wb_req_parts (parse_req s)) =
      some (some (normalize_branch branch, commit)) := by
  have hhex : ∀ c ∈ commit, isHexChar c = true := by
    intro c hc
    exact List.all_eq_true.mp h6 c hc
  have hplusc : '+' ∉ commit := fun hm => (isHexChar_ne '+' (hhex _ hm)).1 rfl
  have hdotc : '.' ∉ commit := fun hm => (isHexChar_ne '.' (hhex _ hm)).2.1 rfl
  have hplusnb : '+' ∉ normalize_branch branch :=
    not_mem_normalize_branch (by decide) h5
  have hpe : '=' ∉ "index-".data ++ lowerStr repo := by
    intro hm
    rcases List.mem_append.mp hm with hA | hB
    · exact absurd hA (by decide)
    · exact h3 hB
  have hws : ∀ x ∈ "index-".data ++ lowerStr repo, x.isWhitespace = false := by
    intro x hm
    rcases List.mem_append.mp hm with hA | hB
    · exact (show ∀ y ∈ "index-".data, y.isWhitespace = false by decide) x hA
    · exact h4 x hB
  have hp : ("index-".data ++ lowerStr repo : Str) ≠ [] := by simp
  have hv : ("0.0.0+".data ++ normalize_branch branch ++ '.' :: commit : Str) ≠ [] := by
    simp
  unfold _wb
  rw [splitCh_append '/' repo h1, splitCh_of_not_mem h2]
  simp only [if_pos h7, Option.map_some']
  rw [parse_req_boundary hp hpe hws hv]
  unfold wb_req_parts
  simp only
  rw [show ("0.0.0+".data ++ normalize_branch branch ++ '.' :: commit : Str) =
      "0.0.0".data ++ '+' :: (normalize_branch branch ++ '.' :: commit) from rfl]
  rw [splitCh_append '+' _ (by decide)]
  rw [splitCh_of_not_mem (show '+' ∉ normalize_branch branch ++ '.' :: commit by
    intro hm
    rcases List.mem_append.mp hm with hA | hB
    · exact hplusnb hA
    · rcases List.mem_cons.mp hB with hc | hc
      · exact absurd hc (by decide)
      · exact hplusc hc)]
  simp only
  rw [splitCh_concat '.' (normalize_branch branch) hdotc]
  rw [dropLast_concat_own, getLastD_concat_own, joinCh_splitCh]

/-- Claim C2 counterexample: for the branch `a+b` (which contains `+`) the
decode of the encode does not recover `(normalize(branch), commit)`, so the
round-trip law does not hold for every branch string. -/
theorem C2_counterexample :
    (_wb "org/repo".data "a+b".data "abc1234".data).map
        (fun s => wb_req_parts (parse_req s)) ≠
      some (some (normalize_branch "a+b".data, "abc1234".data)) := by decide

/-- Witness for `C2_roundtrip` at a concrete input. -/
theorem C2_witness :
    (_wb ("org".data ++ '/' :: "repo".data) "feat/deps".data "abc1234".data).map
        (fun s => wb_req_parts (parse_req s)) =
      some (some ("feat.deps".data, "abc1234".data)) := by
  have h := C2_roundtrip "org".data "repo".data "feat/deps".data "abc1234".data
    (by decide) (by decide) (by decide) (by decide) (by decide) (by decide) (by decide)
  exact h.trans (by decide)

/-! ## Claim C8: primary/fallback selection in `utils.wb` -/

theorem _wb_nil_commit (w b : Str) : _wb w b [] = none := by
  unfold _wb
  split
  · simp
  · rfl

/-- Claim C8 (confirmed): `wb` encodes with the primary pair whenever
`primary_commit` is truthy, otherwise with the fallback pair, and fails when
both commits are absent (in the source the failure surfaces through the
commit-length assertion inside `_wb`; the spec names it
`NoCommitFoundError`). -/
theorem C8_wb_selection (w pb fb : Str) (pc fc : Option Str) :
    (truthy pc = true → wb w pb pc fb fc = _wb w pb (pc.getD [])) ∧
    (truthy pc = false → truthy fc = true → wb w pb pc fb fc = _wb w fb (fc.getD [])) ∧
    (truthy pc = false → truthy fc = false → wb w pb pc fb fc = none) := by
  refine ⟨fun h => ?_, fun h1 _ => ?_, fun h1 h2 => ?_⟩
  · simp [wb, h]
  · simp [wb, h1]
  · have hfc : fc.getD [] = [] := by
      cases fc with
      | none => rfl
      | some s =>
        simp [truthy] at h2
        simp [h2]
    simp [wb, h1, hfc, _wb_nil_commit]

/-- Witness for `C8_wb_selection` at a concrete input with both commits
absent. -/
theorem C8_witness :
    truthy (none : Option Str) = false ∧
    wb "o/r".data "p".data none "f".data none = none :=
  ⟨by decide,
    (C8_wb_selection "o/r".data "p".data "f".data none none).2.2 rfl rfl⟩

/-! ## Lemmas about the Python ordering of requirements -/

theorem charToNat_inj {a b : Char} (h : a.toNat = b.toNat) : a = b :=
  Char.eq_of_val_eq (UInt32.toNat.inj h)

theorem strLtB_trans {a : Str} : ∀ {b c : Str},
    strLtB a b = true → strLtB b c = true → strLtB a c = true := by
  induction a with
  | nil =>
    intro b c h1 h2
    cases b with
    | nil => simp [strLtB] at h1
    | cons y ys =>
      cases c with
      | nil => simp [strLtB] at h2
      | cons z zs => simp [strLtB]
  | cons x xs ih =>
    intro b c h1 h2
    cases b with
    | nil => simp [strLtB] at h1
    | cons y ys =>
      cases c with
      | nil => simp [strLtB] at h2
      | cons z zs =>
        simp only [strLtB] at h1 h2 ⊢
        by_cases hxy : x.toNat < y.toNat
        · by_cases hyz : y.toNat < z.toNat
          · simp [show x.toNat < z.toNat by omega]
          · by_cases hzy : z.toNat < y.toNat
            · simp [hyz, hzy] at h2
            · simp [show x.toNat < z.toNat by omega]
        · by_cases hyx : y.toNat < x.toNat
          · simp [hxy, hyx] at h1
          · simp [hxy, hyx] at h1
            by_cases hyz : y.toNat < z.toNat
            · simp [show x.toNat < z.toNat by omega]
            · by_cases hzy : z.toNat < y.toNat
              · simp [hyz, hzy] at h2
              · simp [hyz, hzy] at h2
                simp [show ¬ x.toNat < z.toNat by omega,
                  show ¬ z.toNat < x.toNat by omega]
                exact ih h1 h2

theorem strLtB_connex {a : Str} : ∀ {b : Str}, a ≠ b →
    strLtB a b = true ∨ strLtB b a = true := by
  induction a with
  | nil =>
    intro b hne
    cases b with
    | nil => exact absurd rfl hne
    | cons y ys => exact Or.inl (by simp [strLtB])
  | cons x xs ih =>
    intro b hne
    cases b with
    | nil => exact Or.inr (by simp [strLtB])
    | cons y ys =>
      by_cases hxy : x.toNat < y.toNat
      · exact Or.inl (by simp [strLtB, hxy])
      · by_cases hyx : y.toNat < x.toNat
        · exact Or.inr (by simp [strLtB, hyx])
        · have hx : x = y := charToNat_inj (by omega)
          subst hx
          have hxs : xs ≠ ys := fun h => hne (h ▸ rfl)
          rcases ih hxs with h | h
          · exact Or.inl (by simp [strLtB, h])
          · exact Or.inr (by simp [strLtB, h])

theorem strLtB_irrefl (a : Str) : strLtB a a = false := by
  induction a with
  | nil => rfl
  | cons x xs ih => simp [strLtB, ih]

theorem verLtB_trans {a b c : Option Str} (h1 : verLtB a b = true)
    (h2 : verLtB b c = true) : verLtB a c = true := by
  cases a <;> cases b <;> cases c <;> simp [verLtB] at h1 h2 ⊢
  exact strLtB_trans h1 h2

theorem verLtB_connex {a b : Option Str} (hne : a ≠ b) :
    verLtB a b = true ∨ verLtB b a = true := by
  cases a with
  | none =>
    cases b with
    | none => exact absurd rfl hne
    | some v => exact Or.inl rfl
  | some u =>
    cases b with
    | none => exact Or.inr rfl
    | some v =>
      have huv : u ≠ v := fun h => hne (h ▸ rfl)
      exact strLtB_connex huv

theorem verLtB_irrefl (a : Option Str) : verLtB a a = false := by
  cases a with
  | none => rfl
  | some v => simpa [verLtB] using strLtB_irrefl v

theorem reqLtB_trans {a b c : Requirement} (h1 : reqLtB a b = true)
    (h2 : reqLtB b c = true) : reqLtB a c = true := by
  unfold reqLtB at h1 h2 ⊢
  simp only [Bool.or_eq_true, Bool.and_eq_true, decide_eq_true_eq] at h1 h2 ⊢
  rcases h1 with h1 | ⟨he1, hv1⟩ <;> rcases h2 with h2 | ⟨he2, hv2⟩
  · exact Or.inl (strLtB_trans h1 h2)
  · exact Or.inl (he2 ▸ h1)
  · exact Or.inl (he1 ▸ h2)
  · exact Or.inr ⟨he1.trans he2, verLtB_trans hv1 hv2⟩

theorem reqLtB_connex {a b : Requirement} (hne : a ≠ b) :
    reqLtB a b = true ∨ reqLtB b a = true := by
  by_cases hn : a.name = b.name
  · have hv : a.version ≠ b.version := by
      intro h
      apply hne
      cases a
      cases b
      simp_all
    rcases verLtB_connex hv with h | h
    · exact Or.inl (by simp [reqLtB, hn, h])
    · exact Or.inr (by simp [reqLtB, hn.symm, h])
  · rcases strLtB_connex hn with h | h
    · exact Or.inl (by simp [reqLtB, h])
    · exact Or.inr (by simp [reqLtB, h])

theorem reqLtB_irrefl (a : Requirement) : reqLtB a a = false := by
  simp [reqLtB, strLtB_irrefl, verLtB_irrefl]

theorem mem_insertReq {r x : Requirement} {l : List Requirement} :
    x ∈ insertReq r l ↔ x = r ∨ x ∈ l := by
  induction l with
  | nil => simp [insertReq]
  | cons y ys ih =>
    by_cases h1 : r = y
    · subst h1
      simp [insertReq]
    · by_cases h2 : reqLtB r y = true
      · simp [insertReq, h1, h2]
      · simp [insertReq, h1, h2, ih]
        tauto

theorem pairwise_insertReq {r : Requirement} {l : List Requirement}
    (h : List.Pairwise (fun a b => reqLtB a b = true) l) :
    List.Pairwise (fun a b => reqLtB a b = true) (insertReq r l) := by
  induction l with
  | nil => simp [insertReq]
  | cons y ys ih =>
    rcases List.pairwise_cons.mp h with ⟨hy, hys⟩
    by_cases h1 : r = y
    · subst h1
      simpa [insertReq] using h
    · by_cases h2 : reqLtB r y = true
      · simp only [insertReq, if_neg h1, if_pos h2]
        apply List.pairwise_cons.mpr
        refine ⟨?_, h⟩
        intro z hz
        rcases List.mem_cons.mp hz with rfl | hz
        · exact h2
        · exact reqLtB_trans h2 (hy z hz)
      · simp only [insertReq, if_neg h1, if_neg h2]
        apply List.pairwise_cons.mpr
        constructor
        · intro z hz
          rcases mem_insertReq.mp hz with rfl | hz
          · rcases reqLtB_connex h1 with hh | hh
            · exact absurd hh h2
            · exact hh
          · exact hy z hz
        · exact ih hys

theorem mem_sortDedup {x : Requirement} {l : List Requirement} :
    x ∈ sortDedup l ↔ x ∈ l := by
  unfold sortDedup
  induction l with
  | nil => simp
  | cons y ys ih => simp [List.foldr, mem_insertReq, ih]

theorem pairwise_sortDedup (l : List Requirement) :
    List.Pairwise (fun a b => reqLtB a b = true) (sortDedup l) := by
  unfold sortDedup
  induction l with
  | nil => simp
  | cons y ys ih => exact pairwise_insertReq ih

theorem nodup_sortDedup (l : List Requirement) : (sortDedup l).Nodup := by
  have h := pairwise_sortDedup l
  refine h.imp ?_
  intro a b hab heq
  rw [heq] at hab
  rw [reqLtB_irrefl] at hab
  cases hab

/-! ## Claim C6: classification of requirements -/

theorem reqLtP_eq_some {a b : Requirement}
    (h : a.name = b.name → a.version.isSome = b.version.isSome) :
    reqLtP a b = some (reqLtB a b) := by
  unfold reqLtP reqLtB
  by_cases hn : a.name = b.name
  · rw [if_pos hn]
    cases ha : a.version with
    | none =>
      cases hb : b.version with
      | none => simp [verLtP, verLtB, hn, strLtB_irrefl]
      | some vb =>
        have hv := h hn
        rw [ha, hb] at hv
        simp at hv
    | some va =>
      cases hb : b.version with
      | none =>
        have hv := h hn
        rw [ha, hb] at hv
        simp at hv
      | some vb => simp [verLtP, verLtB, hn, strLtB_irrefl]
  · rw [if_neg hn]
    simp [hn]

theorem insertReqP_eq {r : Requirement} {acc : List Requirement}
    (h : ∀ x ∈ acc, r.name = x.name → r.version.isSome = x.version.isSome) :
    insertReqP r acc = some (insertReq r acc) := by
  induction acc with
  | nil => rfl
  | cons x xs ih =>
    rw [show insertReqP r (x :: xs) =
        (if r = x then some (x :: xs)
         else
           match reqLtP r x with
           | none => none
           | some true => some (r :: x :: xs)
           | some false => (insertReqP r xs).map (fun l => x :: l)) from rfl]
    rw [show insertReq r (x :: xs) =
        (if r = x then x :: xs
         else if reqLtB r x then r :: x :: xs
         else x :: insertReq r xs) from rfl]
    by_cases hrx : r = x
    · rw [if_pos hrx, if_pos hrx]
    · rw [if_neg hrx, if_neg hrx]
      rw [reqLtP_eq_some (h x (List.mem_cons_self _ _))]
      by_cases hlt : reqLtB r x = true
      · rw [hlt]
        rfl
      · have hf : reqLtB r x = false := by
          cases hb : reqLtB r x
          · rfl
          · exact absurd hb hlt
        rw [hf, ih (fun y hy hn => h y (List.mem_cons_of_mem _ hy) hn)]
        rfl

theorem sortDedupP_eq {l : List Requirement}
    (h : ∀ a ∈ l, ∀ b ∈ l, a.name = b.name → a.version.isSome = b.version.isSome) :
    sortDedupP l = some (sortDedup l) := by
  induction l with
  | nil => rfl
  | cons r rest ih =>
    have hrest := ih (fun a ha b hb =>
      h a (List.mem_cons_of_mem _ ha) b (List.mem_cons_of_mem _ hb))
    rw [show sortDedupP (r :: rest) = (sortDedupP rest).bind (insertReqP r) from rfl]
    rw [hrest]
    rw [show (some (sortDedup rest)).bind (insertReqP r) =
        insertReqP r (sortDedup rest) from rfl]
    rw [insertReqP_eq (fun x hx hn =>
      h r (List.mem_cons_self _ _) x (List.mem_cons_of_mem _ (mem_sortDedup.mp hx)) hn)]
    rfl

/-- Claim C6 counterexample: at the concrete input
`["a==9", "a-b==1", "a=="]` with the empty prefix, classification succeeds
but the internal list is not sorted by rendering (`"a-b==1"` renders
lexicographically before `"a==9"` yet is listed after it, because the code
sorts by the `(name, version)` tuple) and contains the version-less
requirement parsed from `"a=="`; and at `["requests", "requests==2"]` with
prefix `"index"` classification returns no lists at all, because Python's
`sorted()` raises `TypeError` when it compares the bare `requests` (version
`None`) with the versioned one. -/
theorem C6_counterexample :
    classify_reqs ["a==9".data, "a-b==1".data, "a==".data] [] =
      some ([⟨"a".data, some "9".data⟩, ⟨"a-b".data, some "1".data⟩,
        ⟨"a==".data, none⟩], []) ∧
    ¬ (List.Pairwise (fun a b => strLtB (renderReq a) (renderReq b) = true)
        [⟨"a".data, some "9".data⟩, ⟨"a-b".data, some "1".data⟩,
          (⟨"a==".data, none⟩ : Requirement)] ∧
      ∀ q ∈ [⟨"a".data, some "9".data⟩, ⟨"a-b".data, some "1".data⟩,
          (⟨"a==".data, none⟩ : Requirement)], q.version.isSome = true) ∧
    classify_reqs ["requests".data, "requests==2".data] "index".data = none := by
  decide

/-- Claim C6 (corrected): for requirement strings free of Python-whitespace
characters (the region where the regex model is exact) and such that neither
side of the partition holds one package name both bare and versioned
(otherwise `sorted()` raises `TypeError`, modelled as `classify_reqs`
returning `none`), classification succeeds and partitions the input by the
raw-string predicate `is_wb_req` (string starts with the prefix and contains
`==`); both output lists are deduplicated and sorted in the
`(name, version)` tuple order used by Python's NamedTuple comparison (not by
rendering).  A bare name without `==` is never internal, but a string such
as `"a=="` is internal while parsing with no version.  The spec's worked
example is recovered exactly, and the same-name crash is exhibited
concretely. -/
theorem C6_classify_partition :
    (∀ (reqs : List Str) (pfx : Str),
      (∀ r ∈ reqs, ∀ c ∈ r, isPyWhitespace c = false) →
      (∀ a ∈ (reqs.filter (fun r => is_wb_req r pfx)).map parse_req,
        ∀ b ∈ (reqs.filter (fun r => is_wb_req r pfx)).map parse_req,
        a.name = b.name → a.version.isSome = b.version.isSome) →
      (∀ a ∈ (reqs.filter (fun r => !is_wb_req r pfx)).map parse_req,
        ∀ b ∈ (reqs.filter (fun r => !is_wb_req r pfx)).map parse_req,
        a.name = b.name → a.version.isSome = b.version.isSome) →
      ∃ int ext, classify_reqs reqs pfx = some (int, ext) ∧
        (∀ q, q ∈ int ↔ ∃ r ∈ reqs, is_wb_req r pfx = true ∧ parse_req r = q) ∧
        (∀ q, q ∈ ext ↔ ∃ r ∈ reqs, is_wb_req r pfx = false ∧ parse_req r = q) ∧
        int.Nodup ∧ ext.Nodup ∧
        List.Pairwise (fun a b => reqLtB a b = true) int ∧
        List.Pairwise (fun a b => reqLtB a b = true) ext) ∧
    classify_reqs ["index-foo==1".data, "requests==2".data, "index-bar".data]
        "index".data =
      some ([⟨"index-foo".data, some "1".data⟩],
        [⟨"index-bar".data, none⟩, ⟨"requests".data, some "2".data⟩]) ∧
    classify_reqs ["requests".data, "requests==2".data] "index".data = none := by
  refine ⟨?_, by decide, by decide⟩
  intro reqs pfx hws hint hext
  refine ⟨sortDedup ((reqs.filter (fun r => is_wb_req r pfx)).map parse_req),
    sortDedup ((reqs.filter (fun r => !is_wb_req r pfx)).map parse_req),
    ?_, ?_, ?_, nodup_sortDedup _, nodup_sortDedup _,
    pairwise_sortDedup _, pairwise_sortDedup _⟩
  · unfold classify_reqs
    rw [sortDedupP_eq hint, sortDedupP_eq hext]
  · intro q
    rw [mem_sortDedup]
    simp only [List.mem_map, List.mem_filter]
    constructor
    · rintro ⟨r, ⟨hr, hw⟩, hp⟩
      exact ⟨r, hr, hw, hp⟩
    · rintro ⟨r, hr, hw, hp⟩
      exact ⟨r, ⟨hr, hw⟩, hp⟩
  · intro q
    rw [mem_sortDedup]
    simp only [List.mem_map, List.mem_filter, Bool.not_eq_true']
    constructor
    · rintro ⟨r, ⟨hr, hw⟩, hp⟩
      exact ⟨r, hr, hw, hp⟩
    · rintro ⟨r, hr, hw, hp⟩
      exact ⟨r, ⟨hr, hw⟩, hp⟩

/-- Witness for C6: the universal statement applied to the spec's worked
example, with every hypothesis discharged by computation. -/
theorem C6_witness :
    ∃ int ext,
      classify_reqs ["index-foo==1".data, "requests==2".data,
          "index-bar".data] "index".data = some (int, ext) ∧
      (∀ q, q ∈ int ↔ ∃ r ∈ ["index-foo==1".data, "requests==2".data,
          "index-bar".data], is_wb_req r "index".data = true ∧ parse_req r = q) ∧
      (∀ q, q ∈ ext ↔ ∃ r ∈ ["index-foo==1".data, "requests==2".data,
          "index-bar".data], is_wb_req r "index".data = false ∧ parse_req r = q) ∧
      int.Nodup ∧ ext.Nodup ∧
      List.Pairwise (fun a b => reqLtB a b = true) int ∧
      List.Pairwise (fun a b => reqLtB a b = true) ext :=
  C6_classify_partition.1 ["index-foo==1".data, "requests==2".data,
      "index-bar".data] "index".data (by decide) (by decide) (by decide)

/-! ## Claims C3 and C4: conflict resolution -/

theorem homoFilter_eq_filter {versions : List Requirement} {pbn : Str}
    (h : ∀ r ∈ versions, (wb_req_parts r).isSome = true) :
    homoFilter versions pbn = some (versions.filter (isHomoB pbn)) := by
  induction versions with
  | nil => rfl
  | cons r rest ih =>
    have hr := h r (List.mem_cons_self _ _)
    obtain ⟨⟨b, c⟩, hbc⟩ := Option.isSome_iff_exists.mp hr
    rw [show homoFilter (r :: rest) pbn =
        match wb_req_parts r with
        | none => none
        | some (b, _) =>
          match homoFilter rest pbn with
          | none => none
          | some hs => some (if b = pbn then r :: hs else hs) from rfl]
    rw [hbc, ih (fun x hx => h x (List.mem_cons_of_mem _ hx))]
    rw [List.filter_cons]
    by_cases hb : b = pbn
    · simp [isHomoB, hbc, hb]
    · simp [isHomoB, hbc, hb]

theorem homoFilter_subset {versions hs : List Requirement} {pbn : Str}
    (h : homoFilter versions pbn = some hs) : ∀ x ∈ hs, x ∈ versions := by
  induction versions generalizing hs with
  | nil =>
    simp only [homoFilter, Option.some_inj] at h
    subst h
    intro x hx
    cases hx
  | cons r rest ih =>
    rw [show homoFilter (r :: rest) pbn =
        match wb_req_parts r with
        | none => none
        | some (b, _) =>
          match homoFilter rest pbn with
          | none => none
          | some hs => some (if b = pbn then r :: hs else hs) from rfl] at h
    cases hw : wb_req_parts r with
    | none => rw [hw] at h; cases h
    | some bc =>
      obtain ⟨b, c⟩ := bc
      rw [hw] at h
      cases hrest : homoFilter rest pbn with
      | none => rw [hrest] at h; cases h
      | some hs0 =>
        rw [hrest] at h
        simp only [Option.some_inj] at h
        subst h
        intro x hx
        by_cases hb : b = pbn
        · rw [if_pos hb] at hx
          rcases List.mem_cons.mp hx with rfl | hx
          · exact List.mem_cons_self _ _
          · exact List.mem_cons_of_mem _ (ih hrest x hx)
        · rw [if_neg hb] at hx
          exact List.mem_cons_of_mem _ (ih hrest x hx)

theorem head?_mem {l : List α} {x : α} (h : l.head? = some x) : x ∈ l := by
  cases l with
  | nil => cases h
  | cons a rest =>
    simp only [List.head?, Option.some_inj] at h
    exact h ▸ List.mem_cons_self _ _

theorem resolve_req_version_mem {versions : List Requirement} {pb : Str}
    {r : Requirement} (h : resolve_req_version versions pb = some r) :
    r ∈ versions := by
  unfold resolve_req_version at h
  by_cases hlen : versions.length = 1
  · rw [if_pos hlen] at h
    exact head?_mem h
  · rw [if_neg hlen] at h
    simp only at h
    cases hh : homoFilter versions (normalize_branch pb) with
    | none => rw [hh] at h; cases h
    | some hs =>
      rw [hh] at h
      cases hs with
      | nil => exact head?_mem h
      | cons h0 t0 =>
        simp only [Option.some_inj] at h
        exact h ▸ homoFilter_subset hh h0 (List.mem_cons_self _ _)

/-- Claim C3 (confirmed): when every candidate's version decodes and exactly
one candidate is homonymous with the normalized primary branch,
`resolve_req_version` returns that candidate. -/
theorem C3_homonymous_branch_wins (versions : List Requirement) (pb : Str)
    (r : Requirement)
    (hdec : ∀ x ∈ versions, (wb_req_parts x).isSome = true)
    (hone : versions.filter (isHomoB (normalize_branch pb)) = [r]) :
    resolve_req_version versions pb = some r := by
  unfold resolve_req_version
  by_cases hlen : versions.length = 1
  · rw [if_pos hlen]
    obtain ⟨v, rfl⟩ := List.length_eq_one.mp hlen
    have hv : v = r := by
      rw [List.filter_cons] at hone
      by_cases hh : isHomoB (normalize_branch pb) v = true
      · rw [if_pos (by simp [hh])] at hone
        simpa using hone
      · simp [hh] at hone
    subst hv
    rfl
  · rw [if_neg hlen]
    simp only
    rw [homoFilter_eq_filter hdec, hone]

/-- Witness for `C3_homonymous_branch_wins`: the spec's worked example. -/
theorem C3_witness :
    resolve_req_version
      [⟨"index-foo".data, some "0.0.0+feat.deps.abc1234".data⟩,
       ⟨"index-foo".data, some "0.0.0+feat.other.def5678".data⟩] "feat/deps".data =
      some ⟨"index-foo".data, some "0.0.0+feat.deps.abc1234".data⟩ :=
  C3_homonymous_branch_wins _ _ _ (by decide) (by decide)

/-- Claim C4 counterexample: with no homonymous candidate the resolver
returns the first element of the candidate list as given, which need not be
the lexicographically first rendering: here the returned candidate's
rendering is strictly greater than the other candidate's. -/
theorem C4_counterexample :
    resolve_req_version
      [⟨"index-foo".data, some "0.0.0+b.1111111".data⟩,
       ⟨"index-foo".data, some "0.0.0+a.1111111".data⟩] "z".data =
      some ⟨"index-foo".data, some "0.0.0+b.1111111".data⟩ ∧
    strLtB (renderReq ⟨"index-foo".data, some "0.0.0+a.1111111".data⟩)
      (renderReq ⟨"index-foo".data, some "0.0.0+b.1111111".data⟩) = true := by
  decide

theorem addGroup_keys (acc : List (Str × List Requirement)) (r : Requirement) :
    (addGroup acc r).map Prod.fst =
      if r.name ∈ acc.map Prod.fst then acc.map Prod.fst
      else acc.map Prod.fst ++ [r.name] := by
  induction acc with
  | nil => simp [addGroup]
  | cons g rest ih =>
    obtain ⟨k, vs⟩ := g
    by_cases hk : k = r.name
    · subst hk
      simp [addGroup]
    · have hne : ¬(r.name = k) := fun h => hk h.symm
      simp only [addGroup, if_neg hk, List.map_cons, ih]
      by_cases hmem : r.name ∈ rest.map Prod.fst <;>
        simp [List.mem_cons, hne, hmem]

theorem addGroup_mem {acc : List (Str × List Requirement)} {r : Requirement}
    {g : Str × List Requirement} (hg : g ∈ addGroup acc r) :
    g ∈ acc ∨
    (∃ vs, (g.1, vs) ∈ acc ∧ g.2 = vs ++ [r] ∧ g.1 = r.name) ∨
    g = (r.name, [r]) := by
  induction acc with
  | nil =>
    simp [addGroup] at hg
    exact Or.inr (Or.inr hg)
  | cons g0 rest ih =>
    obtain ⟨k, vs⟩ := g0
    by_cases hk : k = r.name
    · subst hk
      simp only [addGroup, if_pos rfl] at hg
      rcases List.mem_cons.mp hg with rfl | hg
      · exact Or.inr (Or.inl ⟨vs, List.mem_cons_self _ _, rfl, rfl⟩)
      · exact Or.inl (List.mem_cons_of_mem _ hg)
    · simp only [addGroup, if_neg hk] at hg
      rcases List.mem_cons.mp hg with rfl | hg
      · exact Or.inl (List.mem_cons_self _ _)
      · rcases ih hg with h | ⟨vs0, hvs0, he, hn⟩ | h
        · exact Or.inl (List.mem_cons_of_mem _ h)
        · exact Or.inr (Or.inl ⟨vs0, List.mem_cons_of_mem _ hvs0, he, hn⟩)
        · exact Or.inr (Or.inr h)

theorem group_foldl_inv (reqs : List Requirement) :
    ∀ (acc : List (Str × List Requirement)),
      (acc.map Prod.fst).Nodup →
      (∀ g ∈ acc, g.2 ≠ [] ∧ ∀ x ∈ g.2, x.name = g.1) →
      ((List.foldl addGroup acc reqs).map Prod.fst).Nodup ∧
      (∀ g ∈ List.foldl addGroup acc reqs, g.2 ≠ [] ∧ ∀ x ∈ g.2, x.name = g.1) ∧
      (∀ n, n ∈ (List.foldl addGroup acc reqs).map Prod.fst ↔
        n ∈ acc.map Prod.fst ∨ n ∈ reqs.map Requirement.name) ∧
      (∀ g ∈ List.foldl addGroup acc reqs, ∀ x ∈ g.2,
        (∃ g0 ∈ acc, x ∈ g0.2) ∨ x ∈ reqs) := by
  induction reqs with
  | nil =>
    intro acc h1 h2
    refine ⟨h1, h2, ?_, ?_⟩
    · simp
    · intro g hg x hx
      exact Or.inl ⟨g, hg, hx⟩
  | cons r rest ih =>
    intro acc h1 h2
    have hkeys : ((addGroup acc r).map Prod.fst).Nodup := by
      rw [addGroup_keys]
      by_cases hmem : r.name ∈ acc.map Prod.fst
      · simpa [hmem] using h1
      · simp [hmem, List.nodup_append, h1]
    have hgrp : ∀ g ∈ addGroup acc r, g.2 ≠ [] ∧ ∀ x ∈ g.2, x.name = g.1 := by
      intro g hg
      rcases addGroup_mem hg with h | ⟨vs, hvs, he, hn⟩ | h
      · exact h2 g h
      · constructor
        · rw [he]
          simp
        · intro x hx
          rw [he] at hx
          rcases List.mem_append.mp hx with hx | hx
          · exact (h2 _ hvs).2 x hx
          · rw [List.mem_singleton.mp hx, hn]
      · rw [h]
        simp
    obtain ⟨k1, k2, k3, k4⟩ := ih (addGroup acc r) hkeys hgrp
    rw [List.foldl_cons]
    refine ⟨k1, k2, ?_, ?_⟩
    · intro n
      rw [k3 n, addGroup_keys]
      by_cases hmem : r.name ∈ acc.map Prod.fst
      · rw [if_pos hmem]
        constructor
        · rintro (h | h)
          · exact Or.inl h
          · exact Or.inr (List.mem_cons_of_mem _ h)
        · rintro (h | h)
          · exact Or.inl h
          · rcases List.mem_cons.mp h with rfl | h
            · exact Or.inl hmem
            · exact Or.inr h
      · rw [if_neg hmem]
        simp only [List.mem_append, List.mem_singleton, List.map_cons,
          List.mem_cons]
        tauto
    · intro g hg x hx
      rcases k4 g hg x hx with ⟨g0, hg0, hxg0⟩ | hxr
      · rcases addGroup_mem hg0 with h | ⟨vs, hvs, he, _⟩ | h
        · exact Or.inl ⟨g0, h, hxg0⟩
        · rw [he] at hxg0
          rcases List.mem_append.mp hxg0 with hx2 | hx2
          · exact Or.inl ⟨(g0.1, vs), hvs, hx2⟩
          · rw [List.mem_singleton.mp hx2]
            exact Or.inr (List.mem_cons_self _ _)
        · rw [h] at hxg0
          rw [List.mem_singleton.mp hxg0]
          exact Or.inr (List.mem_cons_self _ _)
      · exact Or.inr (List.mem_cons_of_mem _ hxr)

theorem mapOpt_isSome {f : α → Option β} {l : List α}
    (h : ∀ a ∈ l, (f a).isSome = true) : ∃ bs, mapOpt f l = some bs := by
  induction l with
  | nil => exact ⟨[], rfl⟩
  | cons a rest ih =>
    obtain ⟨b, hb⟩ := Option.isSome_iff_exists.mp (h a (List.mem_cons_self _ _))
    obtain ⟨bs, hbs⟩ := ih (fun x hx => h x (List.mem_cons_of_mem _ hx))
    exact ⟨b :: bs, by simp [mapOpt, hb, hbs]⟩

theorem mapOpt_forall₂ {f : α → Option β} {l : List α} {bs : List β}
    (h : mapOpt f l = some bs) : List.Forall₂ (fun a b => f a = some b) l bs := by
  induction l generalizing bs with
  | nil =>
    simp only [mapOpt, Option.some_inj] at h
    subst h
    exact List.Forall₂.nil
  | cons a rest ih =>
    simp only [mapOpt] at h
    cases hf : f a with
    | none => rw [hf] at h; cases h
    | some b =>
      rw [hf] at h
      cases hm : mapOpt f rest with
      | none => rw [hm] at h; cases h
      | some bs0 =>
        rw [hm] at h
        simp only [Option.some_inj] at h
        subst h
        exact List.Forall₂.cons hf (ih hm)

theorem forall₂_resolve_names {pb : Str} :
    ∀ {gs : List (Str × List Requirement)} {bs : List Requirement},
      List.Forall₂ (fun g b => resolve_req_version g.2 pb = some b) gs bs →
      (∀ g ∈ gs, ∀ x ∈ g.2, x.name = g.1) →
      bs.map Requirement.name = gs.map Prod.fst := by
  intro gs bs hfa
  induction hfa with
  | nil =>
    intro _
    rfl
  | cons hab htail ihf =>
    intro hnm
    simp only [List.map_cons]
    rw [ihf (fun g hg => hnm g (List.mem_cons_of_mem _ hg))]
    rw [hnm _ (List.mem_cons_self _ _) _ (resolve_req_version_mem hab)]

/-- Claim C4 (corrected): with two or more candidates, all decodable, and no
candidate homonymous with the normalized primary branch,
`resolve_req_version` returns the first candidate of the given list (the
lexicographically first rendering only when the list is sorted by rendering,
as `resolve_wb_reqs` receives from `classify_reqs`; see the counterexample
for an unsorted list).  The case is recoverable: `resolve_wb_reqs` completes
on fully decodable inputs and yields exactly one entry per distinct package
name. -/
theorem C4_no_homonymous_first_candidate :
    (∀ (versions : List Requirement) (pb : Str),
      2 ≤ versions.length →
      (∀ x ∈ versions, (wb_req_parts x).isSome = true) →
      versions.filter (isHomoB (normalize_branch pb)) = [] →
      resolve_req_version versions pb = versions.head?) ∧
    (∀ (reqs : List Requirement) (pb : Str),
      (∀ r ∈ reqs, (wb_req_parts r).isSome = true) →
      ∃ out, resolve_wb_reqs reqs pb = some out ∧
        (out.map Requirement.name).Nodup ∧
        (∀ n, n ∈ out.map Requirement.name ↔ n ∈ reqs.map Requirement.name)) := by
  constructor
  · intro versions pb hlen hdec hnone
    unfold resolve_req_version
    rw [if_neg (by omega)]
    simp only
    rw [homoFilter_eq_filter hdec, hnone]
  · intro reqs pb hdec
    obtain ⟨hkeys, hgrp, hmemkeys, hsrc⟩ :=
      group_foldl_inv reqs [] (by simp) (by simp)
    rw [show List.foldl addGroup [] reqs = group_reqs_by_name reqs from rfl]
      at hkeys hgrp hmemkeys hsrc
    have hres : ∀ g ∈ group_reqs_by_name reqs,
        ((fun g => resolve_req_version g.2 pb) g).isSome = true := by
      intro g hg
      obtain ⟨hne, _⟩ := hgrp g hg
      have hdec' : ∀ x ∈ g.2, (wb_req_parts x).isSome = true := by
        intro x hx
        rcases hsrc g hg x hx with ⟨g0, hg0, _⟩ | hx2
        · simp at hg0
        · exact hdec x hx2
      simp only
      unfold resolve_req_version
      by_cases hlen : g.2.length = 1
      · rw [if_pos hlen]
        obtain ⟨v, hv⟩ := List.length_eq_one.mp hlen
        rw [hv]
        rfl
      · rw [if_neg hlen]
        simp only
        rw [homoFilter_eq_filter hdec']
        cases hf : g.2.filter (isHomoB (normalize_branch pb)) with
        | nil =>
          obtain ⟨v, vs, hv⟩ := List.exists_cons_of_ne_nil hne
          rw [hv]
          rfl
        | cons h0 t0 => rfl
    obtain ⟨picked, hpicked⟩ := mapOpt_isSome hres
    have hnames_eq : picked.map Requirement.name =
        (group_reqs_by_name reqs).map Prod.fst :=
      forall₂_resolve_names (mapOpt_forall₂ hpicked) (fun g hg => (hgrp g hg).2)
    have hpnodup : (picked.map Requirement.name).Nodup := by
      rw [hnames_eq]
      exact hkeys
    refine ⟨sortDedup picked, ?_, ?_, ?_⟩
    · unfold resolve_wb_reqs
      rw [hpicked]
    · exact List.Nodup.map_on
        (fun x hx y hy h => List.inj_on_of_nodup_map hpnodup
          (mem_sortDedup.mp hx) (mem_sortDedup.mp hy) h)
        (nodup_sortDedup picked)
    · intro n
      have h1 : n ∈ (sortDedup picked).map Requirement.name ↔
          n ∈ picked.map Requirement.name := by
        simp only [List.mem_map]
        constructor
        · rintro ⟨q, hq, rfl⟩
          exact ⟨q, mem_sortDedup.mp hq, rfl⟩
        · rintro ⟨q, hq, rfl⟩
          exact ⟨q, mem_sortDedup.mpr hq, rfl⟩
      rw [h1, hnames_eq]
      have := hmemkeys n
      simpa using this

/-- Witness for `C4_no_homonymous_first_candidate` at concrete inputs. -/
theorem C4_witness :
    resolve_req_version
      [⟨"index-foo".data, some "0.0.0+b.1111111".data⟩,
       ⟨"index-foo".data, some "0.0.0+a.1111111".data⟩] "zzz".data =
      ([⟨"index-foo".data, some "0.0.0+b.1111111".data⟩,
        ⟨"index-foo".data, some "0.0.0+a.1111111".data⟩] :
          List Requirement).head? ∧
    ∃ out, resolve_wb_reqs
        [⟨"index-foo".data, some "0.0.0+b.1111111".data⟩,
         ⟨"index-foo".data, some "0.0.0+a.1111111".data⟩] "zzz".data =
        some out ∧
      (out.map Requirement.name).Nodup ∧
      (∀ n, n ∈ out.map Requirement.name ↔
        n ∈ ([⟨"index-foo".data, some "0.0.0+b.1111111".data⟩,
          ⟨"index-foo".data, some "0.0.0+a.1111111".data⟩] :
            List Requirement).map Requirement.name) :=
  ⟨C4_no_homonymous_first_candidate.1 _ _ (by decide) (by decide) (by decide),
   C4_no_homonymous_first_candidate.2 _ _ (by decide)⟩

/-! ## Claims C5 and C9: batched commit fetching -/

theorem transform_ok_map {resp : List RespEntry} {l : List CommitPair}
    (h : transform_graphql_response resp = .ok l) :
    l = resp.map (fun e => ⟨collapseUnd e.1, e.2.1, e.2.2⟩) := by
  induction resp generalizing l with
  | nil =>
    simp only [transform_graphql_response, Except.ok.injEq] at h
    rw [← h]
    rfl
  | cons e rest ih =>
    obtain ⟨repo, p, f⟩ := e
    simp only [transform_graphql_response] at h
    by_cases hb : p = none ∧ f = none
    · rw [if_pos hb] at h
      cases h
    · rw [if_neg hb] at h
      cases hrest : transform_graphql_response rest with
      | error e0 => rw [hrest] at h; cases h
      | ok l0 =>
        rw [hrest] at h
        simp only [Except.ok.injEq] at h
        rw [← h, List.map_cons, ih hrest]

theorem transform_ok_entries {resp : List RespEntry} {l : List CommitPair}
    (h : transform_graphql_response resp = .ok l) :
    ∀ e ∈ resp, ¬(e.2.1 = none ∧ e.2.2 = none) := by
  induction resp generalizing l with
  | nil =>
    intro e he
    cases he
  | cons e0 rest ih =>
    obtain ⟨repo, p, f⟩ := e0
    simp only [transform_graphql_response] at h
    by_cases hb : p = none ∧ f = none
    · rw [if_pos hb] at h
      cases h
    · rw [if_neg hb] at h
      cases hrest : transform_graphql_response rest with
      | error e1 => rw [hrest] at h; cases h
      | ok l0 =>
        intro e he
        rcases List.mem_cons.mp he with rfl | he
        · exact hb
        · exact ih hrest e he

/-- Claim C5 (confirmed): on a successful demultiplex each response entry
yields one `CommitPair` carrying exactly the per-branch hashes (a missing
branch stays `none` on its side) and no returned pair has both sides null;
when some entry has both branches null, the call fails with the error message
naming that workbook. -/
theorem C5_no_silent_double_null :
    (∀ (resp : List RespEntry) (l : List CommitPair),
      transform_graphql_response resp = .ok l →
      l = resp.map (fun e => ⟨collapseUnd e.1, e.2.1, e.2.2⟩) ∧
      ∀ pair ∈ l, pair.primary.isSome = true ∨ pair.fallback.isSome = true) ∧
    (∀ resp : List RespEntry,
      (∃ e ∈ resp, e.2.1 = none ∧ e.2.2 = none) →
      ∃ w, transform_graphql_response resp =
          .error ("Neither primary nor fallback branch found for ".data ++ w) ∧
        ∃ e ∈ resp, collapseUnd e.1 = w ∧ e.2.1 = none ∧ e.2.2 = none) := by
  constructor
  · intro resp l h
    refine ⟨transform_ok_map h, ?_⟩
    intro pair hpair
    rw [transform_ok_map h] at hpair
    obtain ⟨e, he, hpe⟩ := List.mem_map.mp hpair
    have hnn := transform_ok_entries h e he
    rw [← hpe]
    simp only [CommitPair.mk.injEq]
    by_cases h1 : e.2.1 = none
    · right
      cases h2 : e.2.2 with
      | none => exact absurd ⟨h1, h2⟩ hnn
      | some v => simp [h2]
    · left
      cases h1' : e.2.1 with
      | none => exact absurd h1' h1
      | some v => simp [h1']
  · intro resp h
    induction resp with
    | nil =>
      obtain ⟨e, he, _⟩ := h
      cases he
    | cons e0 rest ih =>
      obtain ⟨repo, p, f⟩ := e0
      by_cases hb : p = none ∧ f = none
      · refine ⟨collapseUnd repo, ?_,
          ⟨(repo, p, f), List.mem_cons_self _ _, rfl, hb.1, hb.2⟩⟩
        simp only [transform_graphql_response, if_pos hb]
      · have h' : ∃ e ∈ rest, e.2.1 = none ∧ e.2.2 = none := by
          obtain ⟨e, he, hn⟩ := h
          rcases List.mem_cons.mp he with rfl | he
          · exact absurd ⟨hn.1, hn.2⟩ hb
          · exact ⟨e, he, hn⟩
        obtain ⟨w, hw, e1, he1, hc, hn⟩ := ih h'
        refine ⟨w, ?_, e1, List.mem_cons_of_mem _ he1, hc, hn⟩
        simp only [transform_graphql_response, if_neg hb, hw]

/-- Witness for `C5_no_silent_double_null` at a concrete response. -/
theorem C5_witness :
    ([⟨"a/b".data, some "1234567".data, none⟩] : List CommitPair) =
      ([("a___b".data, some "1234567".data, none)] : List RespEntry).map
        (fun e => ⟨collapseUnd e.1, e.2.1, e.2.2⟩) ∧
    ∀ pair ∈ ([⟨"a/b".data, some "1234567".data, none⟩] : List CommitPair),
      pair.primary.isSome = true ∨ pair.fallback.isSome = true :=
  C5_no_silent_double_null.1 _ _ rfl

theorem collapseUnd_cons {c : Char} (hc : c ≠ '_') (X : Str) :
    collapseUnd (c :: X) = c :: collapseUnd X := by
  match X with
  | [] => rfl
  | [y] => rfl
  | y :: z :: zs =>
    rw [show collapseUnd (c :: y :: z :: zs) =
        if c = '_' ∧ y = '_' ∧ z = '_' then '/' :: collapseUnd zs
        else c :: collapseUnd (y :: z :: zs) from rfl]
    rw [if_neg (fun hq => hc hq.1)]

theorem collapseUnd_expandSlash {w : Str} (h : '_' ∉ w) :
    collapseUnd (expandSlash w) = w := by
  induction w with
  | nil => rfl
  | cons c rest ih =>
    have hc : c ≠ '_' := fun he => h (he ▸ List.mem_cons_self _ _)
    have ih' := ih (fun hm => h (List.mem_cons_of_mem _ hm))
    by_cases hcs : c = '/'
    · subst hcs
      rw [show expandSlash ('/' :: rest) = '_' :: '_' :: '_' :: expandSlash rest
        from by simp [expandSlash]]
      rw [show collapseUnd ('_' :: '_' :: '_' :: expandSlash rest) =
          '/' :: collapseUnd (expandSlash rest) from by simp [collapseUnd]]
      rw [ih']
    · rw [show expandSlash (c :: rest) = c :: expandSlash rest
        from by simp [expandSlash, hcs]]
      rw [collapseUnd_cons hc, ih']

theorem build_query_keys_eq {repos keys : List Str}
    (h : build_query_keys repos = some keys) :
    keys = repos.map expandSlash := by
  have hfa := mapOpt_forall₂ h
  clear h
  induction hfa with
  | nil => rfl
  | cons hab htail ihf =>
    rename_i a b l1 l2
    rw [List.map_cons, ← ihf]
    congr 1
    revert hab
    cases hsp : splitCh '/' a with
    | nil => intro hab; cases hab
    | cons k1 t1 =>
      cases t1 with
      | nil => intro hab; cases hab
      | cons k2 t2 =>
        cases t2 with
        | nil =>
          intro hab
          simpa using hab.symm
        | cons k3 t3 => intro hab; cases hab

/-- Claim C9 counterexample: the list `["a/b", "a/b"]` is assigned the same
alias twice, so a response object (whose keys are distinct) can only carry
one entry for both occurrences, and demultiplexing that response yields one
`CommitPair` — not one per input entry.  Moreover the alias of `"a_/b"` does
not decode back to the origin string, so the unconditional round-trip fails
as well. -/
theorem C9_counterexample :
    build_query_keys ["a/b".data, "a/b".data] =
      some ["a___b".data, "a___b".data] ∧
    ¬(["a___b".data, "a___b".data] : List Str).Nodup ∧
    transform_graphql_response [("a___b".data, some "1234567".data, none)] =
      .ok [⟨"a/b".data, some "1234567".data, none⟩] ∧
    collapseUnd (expandSlash "a_/b".data) ≠ "a_/b".data := by
  refine ⟨by decide, by decide, rfl, by decide⟩

/-- Claim C9 (corrected): every workbook of the batched query gets the alias
obtained by replacing `/` with `___`; the alias decodes back to the origin
workbook whenever the workbook contains no underscore; and demultiplexing
yields one independent `CommitPair` per response entry (hence per distinct
alias), each derived from its own entry only. -/
theorem C9_alias_assignment :
    (∀ (repos keys : List Str), build_query_keys repos = some keys →
      keys = repos.map expandSlash) ∧
    (∀ w : Str, '_' ∉ w → collapseUnd (expandSlash w) = w) ∧
    (∀ (resp : List RespEntry) (l : List CommitPair),
      transform_graphql_response resp = .ok l →
      l = resp.map (fun e => ⟨collapseUnd e.1, e.2.1, e.2.2⟩)) :=
  ⟨fun _ _ h => build_query_keys_eq h,
   fun _ h => collapseUnd_expandSlash h,
   fun _ _ h => transform_ok_map h⟩

/-- Witness for `C9_alias_assignment` at a concrete workbook list. -/
theorem C9_witness :
    (["a___b".data] : List Str) = ["a/b".data].map expandSlash ∧
    collapseUnd (expandSlash "a/b".data) = "a/b".data :=
  ⟨C9_alias_assignment.1 ["a/b".data] ["a___b".data] rfl,
   C9_alias_assignment.2.1 "a/b".data (by decide)⟩

/-! ## Claims C1 and C10: transitive collection -/

theorem collectGo_visited_nodup {rd : List (Str × List Str)} {pl pfx : Str}
    {U : List Str}
    {hU : ∀ kv ∈ rd, ∀ raw ∈ kv.2, renderReq (parse_pkginfo_req raw) ∈ U} :
    ∀ (initial visited : List Str) (hinit : ∀ r ∈ initial, r ∈ U)
      {all delta : List Str},
      collectGo rd pl pfx U hU initial visited hinit = some (all, delta) →
      visited.Nodup → (delta ++ visited).Nodup := by
  intro initial visited hinit
  induction initial, visited, hinit using collectGo.induct rd pl pfx U hU with
  | case1 visited hinit =>
    intro all delta h hnod
    simp only [collectGo, Option.some_inj] at h
    cases h
    simpa using hnod
  | case2 req rest visited hinit hcond hinit2 ih =>
    intro all delta h hnod
    rw [collectGo, dif_pos hcond] at h
    exact ih h hnod
  | case3 req rest visited hinit hcond hwheel hinit2 =>
    intro all delta h hnod
    rw [collectGo, dif_neg hcond] at h
    simp [hwheel] at h
  | case4 req rest visited hinit hcond s hwheel hlk hinit2 =>
    intro all delta h hnod
    rw [collectGo, dif_neg hcond] at h
    simp only [hwheel] at h
    split at h
    · cases h
    · rename_i raw0 heq
      rw [hlk] at heq
      cases heq
  | case5 req rest visited hinit hcond s hwheel raw hlk hnil hrec hinit2 ih =>
    intro all delta h hnod
    rw [collectGo, dif_neg hcond] at h
    simp only [hwheel] at h
    split at h
    · rename_i heq
      rw [hlk] at heq
      cases heq
    · rename_i raw0 heq
      rw [hlk] at heq
      injection heq with heq2
      subst heq2
      rw [if_pos hnil] at h
      simp only [hrec] at h
      cases h
  | case6 req rest visited hinit hcond s hwheel raw hlk hnil all2 d2 hrec hinit2 ih =>
    intro all delta h hnod
    rw [collectGo, dif_neg hcond] at h
    simp only [hwheel] at h
    split at h
    · rename_i heq
      rw [hlk] at heq
      cases heq
    · rename_i raw0 heq
      rw [hlk] at heq
      injection heq with heq2
      subst heq2
      rw [if_pos hnil] at h
      simp only [hrec, Option.some_inj, Prod.mk.injEq] at h
      obtain ⟨h1, h2⟩ := h
      subst h1
      subst h2
      have hreq : req ∉ visited := fun hm => hcond (Or.inl hm)
      have hnod2 : (req :: visited).Nodup := List.nodup_cons.mpr ⟨hreq, hnod⟩
      have hih := ih hrec hnod2
      rw [List.append_assoc]
      simpa using hih
  | case7 req rest visited hinit hcond s hwheel raw hlk hnil hrec hinit2 ih =>
    intro all delta h hnod
    rw [collectGo, dif_neg hcond] at h
    simp only [hwheel] at h
    split at h
    · rename_i heq
      rw [hlk] at heq
      cases heq
    · rename_i raw0 heq
      rw [hlk] at heq
      injection heq with heq2
      subst heq2
      rw [if_neg hnil] at h
      simp only [hrec] at h
      cases h
  | case8 req rest visited hinit hcond s hwheel raw hlk hnil all1 d1 hrec1 hrec2 hinit2 ih1 ih2 =>
    intro all delta h hnod
    rw [collectGo, dif_neg hcond] at h
    simp only [hwheel] at h
    split at h
    · rename_i heq
      rw [hlk] at heq
      cases heq
    · rename_i raw0 heq
      rw [hlk] at heq
      injection heq with heq2
      subst heq2
      rw [if_neg hnil] at h
      simp only [hrec1, hrec2] at h
      cases h
  | case9 req rest visited hinit hcond s hwheel raw hlk hnil all1 d1 hrec1 all2 d2 hrec2 hinit2 ih1 ih2 =>
    intro all delta h hnod
    rw [collectGo, dif_neg hcond] at h
    simp only [hwheel] at h
    split at h
    · rename_i heq
      rw [hlk] at heq
      cases heq
    · rename_i raw0 heq
      rw [hlk] at heq
      injection heq with heq2
      subst heq2
      rw [if_neg hnil] at h
      simp only [hrec1, hrec2, Option.some_inj, Prod.mk.injEq] at h
      obtain ⟨h1, h2⟩ := h
      subst h1
      subst h2
      have hreq : req ∉ visited := fun hm => hcond (Or.inl hm)
      have hnod2 : (req :: visited).Nodup := List.nodup_cons.mpr ⟨hreq, hnod⟩
      have hd1 := ih1 hrec1 hnod2
      have hd2 := ih2 hrec2 hd1
      rw [List.append_assoc, List.append_assoc]
      simpa using hd2

theorem collectGo_sources {rd : List (Str × List Str)} {pl pfx : Str}
    {U : List Str}
    {hU : ∀ kv ∈ rd, ∀ raw ∈ kv.2, renderReq (parse_pkginfo_req raw) ∈ U} :
    ∀ (initial visited : List Str) (hinit : ∀ r ∈ initial, r ∈ U)
      {all delta : List Str},
      collectGo rd pl pfx U hU initial visited hinit = some (all, delta) →
      ∀ s0 ∈ all, ∃ kv, kv ∈ rd ∧ ∃ raw0 ∈ kv.2,
        renderReq (parse_pkginfo_req raw0) = s0 := by
  intro initial visited hinit
  induction initial, visited, hinit using collectGo.induct rd pl pfx U hU with
  | case1 visited hinit =>
    intro all delta h
    simp only [collectGo, Option.some_inj] at h
    cases h
    intro s0 hs0
    cases hs0
  | case2 req rest visited hinit hcond hinit2 ih =>
    intro all delta h
    rw [collectGo, dif_pos hcond] at h
    exact ih h
  | case3 req rest visited hinit hcond hwheel hinit2 =>
    intro all delta h
    rw [collectGo, dif_neg hcond] at h
    simp only [hwheel] at h
    cases h
  | case4 req rest visited hinit hcond s hwheel hlk hinit2 =>
    intro all delta h
    rw [collectGo, dif_neg hcond] at h
    simp only [hwheel] at h
    split at h
    · cases h
    · rename_i raw0 heq
      rw [hlk] at heq
      cases heq
  | case5 req rest visited hinit hcond s hwheel raw hlk hnil hrec hinit2 ih =>
    intro all delta h
    rw [collectGo, dif_neg hcond] at h
    simp only [hwheel] at h
    split at h
    · rename_i heq
      rw [hlk] at heq
      cases heq
    · rename_i raw0 heq
      rw [hlk] at heq
      injection heq with heq2
      subst heq2
      rw [if_pos hnil] at h
      simp only [hrec] at h
      cases h
  | case6 req rest visited hinit hcond s hwheel raw hlk hnil all2 d2 hrec hinit2 ih =>
    intro all delta h
    rw [collectGo, dif_neg hcond] at h
    simp only [hwheel] at h
    split at h
    · rename_i heq
      rw [hlk] at heq
      cases heq
    · rename_i raw0 heq
      rw [hlk] at heq
      injection heq with heq2
      subst heq2
      rw [if_pos hnil] at h
      simp only [hrec, Option.some_inj, Prod.mk.injEq] at h
      obtain ⟨h1, h2⟩ := h
      subst h1
      subst h2
      intro s0 hs0
      rcases List.mem_append.mp hs0 with hs | hs
      · obtain ⟨raw1, hraw1, hrend⟩ := List.mem_map.mp hs
        exact ⟨(pl ++ '/' :: s, raw), alookup_mem hlk, raw1, hraw1, hrend⟩
      · exact ih hrec s0 hs
  | case7 req rest visited hinit hcond s hwheel raw hlk hnil hrec hinit2 ih =>
    intro all delta h
    rw [collectGo, dif_neg hcond] at h
    simp only [hwheel] at h
    split at h
    · rename_i heq
      rw [hlk] at heq
      cases heq
    · rename_i raw0 heq
      rw [hlk] at heq
      injection heq with heq2
      subst heq2
      rw [if_neg hnil] at h
      simp only [hrec] at h
      cases h
  | case8 req rest visited hinit hcond s hwheel raw hlk hnil all1 d1 hrec1 hrec2 hinit2 ih1 ih2 =>
    intro all delta h
    rw [collectGo, dif_neg hcond] at h
    simp only [hwheel] at h
    split at h
    · rename_i heq
      rw [hlk] at heq
      cases heq
    · rename_i raw0 heq
      rw [hlk] at heq
      injection heq with heq2
      subst heq2
      rw [if_neg hnil] at h
      simp only [hrec1, hrec2] at h
      cases h
  | case9 req rest visited hinit hcond s hwheel raw hlk hnil all1 d1 hrec1 all2 d2 hrec2 hinit2 ih1 ih2 =>
    intro all delta h
    rw [collectGo, dif_neg hcond] at h
    simp only [hwheel] at h
    split at h
    · rename_i heq
      rw [hlk] at heq
      cases heq
    · rename_i raw0 heq
      rw [hlk] at heq
      injection heq with heq2
      subst heq2
      rw [if_neg hnil] at h
      simp only [hrec1, hrec2, Option.some_inj, Prod.mk.injEq] at h
      obtain ⟨h1, h2⟩ := h
      subst h1
      subst h2
      intro s0 hs0
      rcases List.mem_append.mp hs0 with hs | hs
      · rcases List.mem_append.mp hs with hs2 | hs2
        · obtain ⟨raw1, hraw1, hrend⟩ := List.mem_map.mp hs2
          exact ⟨(pl ++ '/' :: s, raw), alookup_mem hlk, raw1, hraw1, hrend⟩
        · exact ih1 hrec1 s0 hs2
      · exact ih2 hrec2 s0 hs

/-- Claim C1 (confirmed): collection never inspects the same requirement
string twice (the visited list is duplicate-free), and on the spec's cyclic
example — seed `{A==v1}`, `A`'s artifact declares `["B==v1"]`, `B`'s artifact
declares `["A==v1", "ext-pkg"]` — collection terminates with exactly
`{A==v1, B==v1, ext-pkg}`, visiting `A==v1` and `B==v1` once each.
Termination for every input is witnessed by `collect_requirements` being a
total function. -/
theorem C1_collect_visits_once :
    (∀ (rd : List (Str × List Str)) (initial : List Str)
      (pb fb pl pfx : Str) (all vis : List Str),
      collect_requirements rd initial pb fb pl pfx = some (all, vis) →
      vis.Nodup) ∧
    (collect_requirements
        [("pypi/A-v1-py3-none-any.whl".data, ["B==v1".data]),
         ("pypi/B-v1-py3-none-any.whl".data, ["A==v1".data, "ext-pkg".data])]
        ["A==v1".data] "feat".data "main".data "pypi".data [] =
      some (["B==v1".data, "A==v1".data, "ext-pkg".data],
        ["B==v1".data, "A==v1".data]) ∧
     (∀ s0 ∈ (["B==v1".data, "A==v1".data, "ext-pkg".data] : List Str),
        s0 ∈ (["A==v1".data, "B==v1".data, "ext-pkg".data] : List Str)) ∧
     (∀ s0 ∈ (["A==v1".data, "B==v1".data, "ext-pkg".data] : List Str),
        s0 ∈ (["B==v1".data, "A==v1".data, "ext-pkg".data] : List Str))) := by
  refine ⟨?_, ?_, ?_, ?_⟩
  · intro rd initial pb fb pl pfx all vis h
    unfold collect_requirements at h
    have hnd := collectGo_visited_nodup _ _ _ h List.nodup_nil
    simpa using hnd
  · simp [collect_requirements, collectGo, alookup, declaredStrs, req_to_wheel,
      is_wb_req, hasEq, splitEq, parse_pkginfo_req, matchPE, findPE, renderReq,
      pyMapChar, List.isPrefixOf, dropTrailingWS]
  · decide
  · decide

/-- Witness for the hypothesis-bearing part of `C1_collect_visits_once`,
applying it to the cyclic example run. -/
theorem C1_witness :
    (["B==v1".data, "A==v1".data] : List Str).Nodup :=
  C1_collect_visits_once.1
    [("pypi/A-v1-py3-none-any.whl".data, ["B==v1".data]),
     ("pypi/B-v1-py3-none-any.whl".data, ["A==v1".data, "ext-pkg".data])]
    ["A==v1".data] "feat".data "main".data "pypi".data []
    ["B==v1".data, "A==v1".data, "ext-pkg".data]
    ["B==v1".data, "A==v1".data]
    (by simp [collect_requirements, collectGo, alookup, declaredStrs,
      req_to_wheel, is_wb_req, hasEq, splitEq, parse_pkginfo_req, matchPE,
      findPE, renderReq, pyMapChar, List.isPrefixOf, dropTrailingWS])

/-- Claim C10 (confirmed): every rendering in the result of
`collect_requirements` was declared by some artifact of the store; in
particular a seed requirement appears in the result only if some inspected
artifact declares it back. -/
theorem C10_collect_only_declared (rd : List (Str × List Str))
    (initial : List Str) (pb fb pl pfx : Str) (all vis : List Str)
    (h : collect_requirements rd initial pb fb pl pfx = some (all, vis)) :
    ∀ s0 ∈ all, ∃ kv ∈ rd, ∃ raw0 ∈ kv.2,
      renderReq (parse_pkginfo_req raw0) = s0 := by
  unfold collect_requirements at h
  exact collectGo_sources _ _ _ h

/-- Witness for `C10_collect_only_declared` on the cyclic example: the seed
`A==v1` is in the result and indeed `B`'s artifact declares it. -/
theorem C10_witness :
    ∃ kv ∈ ([("pypi/A-v1-py3-none-any.whl".data, ["B==v1".data]),
      ("pypi/B-v1-py3-none-any.whl".data,
        ["A==v1".data, "ext-pkg".data])] : List (Str × List Str)),
      ∃ raw0 ∈ kv.2, renderReq (parse_pkginfo_req raw0) = "A==v1".data :=
  C10_collect_only_declared
    [("pypi/A-v1-py3-none-any.whl".data, ["B==v1".data]),
     ("pypi/B-v1-py3-none-any.whl".data, ["A==v1".data, "ext-pkg".data])]
    ["A==v1".data] "feat".data "main".data "pypi".data []
    ["B==v1".data, "A==v1".data, "ext-pkg".data]
    ["B==v1".data, "A==v1".data]
    (by simp [collect_requirements, collectGo, alookup, declaredStrs,
      req_to_wheel, is_wb_req, hasEq, splitEq, parse_pkginfo_req, matchPE,
      findPE, renderReq, pyMapChar, List.isPrefixOf, dropTrailingWS])
    "A==v1".data (by decide)
